import Mathlib

/-!
Verification of the Lumos Gamma Ramp Engine
(src/src/platform/win32/gamma.cpp, lumos::platform::Gamma).

The engine's floating-point arithmetic is embedded as exact rational
arithmetic over ℚ.  The one operation that has no exact rational
counterpart, std::pow with a fractional exponent, is abstracted as an
explicit function parameter `powFn : ℚ → ℚ → ℚ` (base, exponent); every
theorem that touches a pow-based curve is stated for all such functions,
so it holds under any semantics of the platform's pow.

A 256-entry WORD array channel is embedded as a function ℕ → ℕ whose
entries 0..255 model the array; definitions extend past index 255 in the
natural way (the identity ramp saturates at 65535 there, matching the
value entry 255 already has).
-/

namespace LumosGamma

/-- One color channel of a gamma ramp: WORD[256], embedded as ℕ → ℕ with
indices 0..255 modelling the array. -/
abbrev Channel := Nat → Nat

/-- GammaRamp from gamma.h: three 256-entry WORD channels. -/
@[ext]
structure GammaRamp where
  red : Channel
  green : Channel
  blue : Channel

/-- Custom curve control point (gamma.h struct CurvePoint), coordinates as
exact rationals in place of double. -/
structure CurvePoint where
  x : ℚ
  y : ℚ

/-- Tone curve presets (gamma.h enum class ToneCurve). -/
inductive ToneCurve where
  | Linear
  | Power
  | ShadowLift
  | SoftContrast
  | Cinema
  | Custom
deriving DecidableEq

/-- Truncating 16-bit quantization: static_cast to WORD of a double
already clamped into [0, 1] times 65535 truncates toward zero, which for
nonnegative values is the floor (gamma.cpp line 362). -/
def quantize (c : ℚ) : ℕ := (⌊c * 65535⌋).toNat

/-- Gamma.buildIdentityRamp: entry i is i * 257, mapping 0..255 onto
0..65535.  Past index 255 the channel stays at the top value 65535. -/
def buildIdentityRamp : GammaRamp :=
  ⟨fun i => min (i * 257) 65535, fun i => min (i * 257) 65535,
    fun i => min (i * 257) 65535⟩

/-- One blended entry of Gamma.blendRampTowardIdentity:
identity + scale * (ramp - identity), computed in double (here ℚ),
clamped to [0, 65535] and cast back to WORD (truncation). -/
def blendEntry (rampV idV : ℕ) (scale : ℚ) : ℕ :=
  (⌊min (max ((idV : ℚ) + scale * ((rampV : ℚ) - (idV : ℚ))) 0) 65535⌋).toNat

/-- Gamma.blendRampTowardIdentity applied per channel and entry. -/
def blendRampTowardIdentity (ramp identity : GammaRamp) (scale : ℚ) : GammaRamp :=
  ⟨fun i => blendEntry (ramp.red i) (identity.red i) scale,
    fun i => blendEntry (ramp.green i) (identity.green i) scale,
    fun i => blendEntry (ramp.blue i) (identity.blue i) scale⟩

/-- The per-channel scan of Gamma.enforceMonotonicity: prev starts at 0 so
entry 0 is never changed (the i > 0 guard); a later entry that is ≤ the
previous (already fixed-up) entry is bumped to prev + 1, saturating at
65535 once prev ≥ 65534. -/
def enforceChannel (raw : Channel) : Channel
  | 0 => raw 0
  | i + 1 =>
    if raw (i + 1) ≤ enforceChannel raw i then
      (if enforceChannel raw i < 65534 then enforceChannel raw i + 1 else 65535)
    else raw (i + 1)

/-- Gamma.enforceMonotonicity: the scan applied to each channel. -/
def enforceMonotonicity (r : GammaRamp) : GammaRamp :=
  ⟨enforceChannel r.red, enforceChannel r.green, enforceChannel r.blue⟩

/-- ShadowLiftCurve (gamma.cpp lines 18-22), the sRGB-shaped encode, with
std::pow abstracted as powFn. -/
def ShadowLiftCurve (powFn : ℚ → ℚ → ℚ) (linear : ℚ) : ℚ :=
  if linear ≤ 31308 / 10000000 then (1292 / 100) * linear
  else (1055 / 1000) * powFn linear (1 / (24 / 10)) - 55 / 1000

/-- SoftContrastCurve (gamma.cpp lines 25-33), the Rec.709-shaped encode. -/
def SoftContrastCurve (powFn : ℚ → ℚ → ℚ) (linear : ℚ) : ℚ :=
  if linear < 18 / 1000 then (45 / 10) * linear
  else (1099 / 1000) * powFn linear (45 / 100) - (1099 / 1000 - 1)

/-- PowerCurve (gamma.cpp lines 36-38): pow(linear, 1/strength). -/
def PowerCurve (powFn : ℚ → ℚ → ℚ) (linear strength : ℚ) : ℚ :=
  powFn linear (1 / strength)

/-- The first-matching-segment search of the Custom branch of
Gamma.buildRamp (lines 318-330): scan consecutive control-point pairs,
and on the first pair whose x-interval contains the input interpolate
linearly (with t forced to 0 on a degenerate segment); if no pair
matches, the value stays at the safe default, the input itself. -/
def interpSearch (linear : ℚ) : List CurvePoint → ℚ
  | p :: q :: rest =>
    if p.x ≤ linear ∧ linear ≤ q.x then
      p.y + (if p.x < q.x then (linear - p.x) / (q.x - p.x) else 0) * (q.y - p.y)
    else interpSearch linear (q :: rest)
  | _ => linear

/-- The Custom branch of Gamma.buildRamp (lines 301-337): with at least
two control points, inputs at or below the first point's x give that
point's y, at or above the last point's x give that point's y, otherwise
the segment search; with fewer than two points the curve is the
identity. -/
def evalCustom (points : List CurvePoint) (linear : ℚ) : ℚ :=
  match points with
  | p :: q :: rest =>
    if linear ≤ p.x then p.y
    else if ((q :: rest).getLast (by simp)).x ≤ linear then
      ((q :: rest).getLast (by simp)).y
    else interpSearch linear (p :: q :: rest)
  | _ => linear

/-- Strength clamping at the top of Gamma.buildRamp (lines 276-277). -/
def clampStrength (s : ℚ) : ℚ :=
  if s < 1 / 10 then 1 / 10 else if 9 < s then 9 else s

/-- The switch statement of Gamma.buildRamp (lines 284-343): evaluate the
selected tone curve at one normalized sample.  A null custom_curve
pointer is the none case; evalCustom itself handles lists shorter than
two points by falling back to the identity, exactly as the source's
combined guard does. -/
def toneEval (powFn : ℚ → ℚ → ℚ) (curve : ToneCurve) (strength : ℚ)
    (pts : Option (List CurvePoint)) (linear : ℚ) : ℚ :=
  match curve with
  | .Linear => linear
  | .ShadowLift => ShadowLiftCurve powFn linear
  | .SoftContrast => SoftContrastCurve powFn linear
  | .Cinema => PowerCurve powFn linear (26 / 10)
  | .Custom =>
    match pts with
    | some ps => evalCustom ps linear
    | none => linear
  | .Power => PowerCurve powFn linear strength

/-- The clamped curve output at sample i of Gamma.buildRamp
(lines 280-360): linear = i/255, curve evaluation with clamped strength,
hard clamp to [0,1], then the soft envelope clamp to
[0, min(1, identity*3 + 0.2)]. -/
def sampleValue (powFn : ℚ → ℚ → ℚ) (curve : ToneCurve) (strength : ℚ)
    (pts : Option (List CurvePoint)) (i : ℕ) : ℚ :=
  let linear : ℚ := (i : ℚ) / 255
  let corrected := toneEval powFn curve (clampStrength strength) pts linear
  let c1 := if corrected < 0 then 0 else corrected
  let c2 := if 1 < c1 then 1 else c1
  let maxAllowed := min 1 (linear * 3 + 1 / 5)
  let c3 := if c2 < 0 then 0 else c2
  if maxAllowed < c3 then maxAllowed else c3

/-- One pre-enforcement channel of Gamma.buildRamp: the quantized clamped
curve output at each sample (line 362). -/
def rawChannel (powFn : ℚ → ℚ → ℚ) (curve : ToneCurve) (strength : ℚ)
    (pts : Option (List CurvePoint)) : Channel :=
  fun i => quantize (sampleValue powFn curve strength pts i)

/-- Gamma.buildRamp (lines 273-372): all three channels get the same
quantized values, then the monotonicity pass runs over the ramp. -/
def buildRamp (powFn : ℚ → ℚ → ℚ) (curve : ToneCurve) (strength : ℚ)
    (pts : Option (List CurvePoint)) : GammaRamp :=
  enforceMonotonicity
    ⟨rawChannel powFn curve strength pts, rawChannel powFn curve strength pts,
      rawChannel powFn curve strength pts⟩

/-! Bounds on the clamped curve output and its quantization. -/

lemma sampleValue_nonneg (powFn : ℚ → ℚ → ℚ) (curve : ToneCurve) (strength : ℚ)
    (pts : Option (List CurvePoint)) (i : ℕ) :
    0 ≤ sampleValue powFn curve strength pts i := by
  unfold sampleValue
  have hl : (0 : ℚ) ≤ (i : ℚ) / 255 := by positivity
  simp only
  split_ifs with h1 h2 h3 h4 <;>
    simp_all [le_min_iff] <;> nlinarith

lemma sampleValue_le_one (powFn : ℚ → ℚ → ℚ) (curve : ToneCurve) (strength : ℚ)
    (pts : Option (List CurvePoint)) (i : ℕ) :
    sampleValue powFn curve strength pts i ≤ 1 := by
  unfold sampleValue
  simp only
  split_ifs with h1 h2 h3 h4 <;>
    simp_all [min_le_iff]

lemma quantize_le_65535 {c : ℚ} (h1 : c ≤ 1) : quantize c ≤ 65535 := by
  unfold quantize
  have : (⌊c * 65535⌋ : ℤ) ≤ 65535 := by
    have : c * 65535 ≤ 65535 := by nlinarith
    calc (⌊c * 65535⌋ : ℤ) ≤ ⌊(65535 : ℚ)⌋ := Int.floor_le_floor this
    _ = 65535 := by norm_num
  omega

lemma rawChannel_le_65535 (powFn : ℚ → ℚ → ℚ) (curve : ToneCurve) (strength : ℚ)
    (pts : Option (List CurvePoint)) (i : ℕ) :
    rawChannel powFn curve strength pts i ≤ 65535 :=
  quantize_le_65535 (sampleValue_le_one powFn curve strength pts i)

/-! The monotonicity pass always yields a non-decreasing, bounded channel. -/

lemma enforceChannel_succ (raw : Channel) (i : ℕ) :
    enforceChannel raw (i + 1) =
      if raw (i + 1) ≤ enforceChannel raw i then
        (if enforceChannel raw i < 65534 then enforceChannel raw i + 1 else 65535)
      else raw (i + 1) := rfl

lemma enforceChannel_le_65535 (raw : Channel) (h : ∀ i, raw i ≤ 65535) :
    ∀ i, enforceChannel raw i ≤ 65535 := by
  intro i
  induction i with
  | zero => exact h 0
  | succ n ih =>
    rw [enforceChannel_succ]
    have := h (n + 1)
    split_ifs <;> omega

lemma enforceChannel_mono_step (raw : Channel) (h : ∀ i, raw i ≤ 65535) (i : ℕ) :
    enforceChannel raw i ≤ enforceChannel raw (i + 1) := by
  have hb := enforceChannel_le_65535 raw h i
  rw [enforceChannel_succ]
  split_ifs <;> omega

/-- C1: for every pow semantics, curve kind, strength and custom
control-point list, every channel of the ramp built by Gamma.buildRamp is
non-decreasing from each entry to the next and every entry lies in
[0, 65535] (entries are ℕ, so 0 is a lower bound by type). -/
theorem buildRamp_monotone_bounded (powFn : ℚ → ℚ → ℚ) (curve : ToneCurve)
    (strength : ℚ) (pts : Option (List CurvePoint)) (i : ℕ) :
    ((buildRamp powFn curve strength pts).red i ≤
        (buildRamp powFn curve strength pts).red (i + 1) ∧
      (buildRamp powFn curve strength pts).red i ≤ 65535) ∧
    ((buildRamp powFn curve strength pts).green i ≤
        (buildRamp powFn curve strength pts).green (i + 1) ∧
      (buildRamp powFn curve strength pts).green i ≤ 65535) ∧
    ((buildRamp powFn curve strength pts).blue i ≤
        (buildRamp powFn curve strength pts).blue (i + 1) ∧
      (buildRamp powFn curve strength pts).blue i ≤ 65535) := by
  have hb := rawChannel_le_65535 powFn curve strength pts
  refine ⟨⟨?_, ?_⟩, ⟨?_, ?_⟩, ?_, ?_⟩ <;>
    first
      | exact enforceChannel_mono_step _ hb i
      | exact enforceChannel_le_65535 _ hb i

/-! Quantization: the source casts the clamped double to WORD, which
truncates toward zero; it does not round to nearest. -/

lemma enforceChannel_eq_of_strict (raw : Channel) (n : ℕ)
    (h : ∀ j, j < n → raw j < raw (j + 1)) :
    enforceChannel raw n = raw n := by
  induction n with
  | zero => rfl
  | succ m ih =>
    rw [enforceChannel_succ, ih (fun j hj => h j (Nat.lt_succ_of_lt hj))]
    have := h m (Nat.lt_succ_self m)
    split_ifs <;> omega

/-- C5 (amended): the clamped curve output v at each sample is quantized
by truncation toward zero — the pre-enforcement entry e is the unique
integer with e ≤ v·65535 < e + 1 — and the built ramp is exactly the
monotonicity pass applied to these truncated entries. -/
theorem c5_quantize_is_truncation (powFn : ℚ → ℚ → ℚ) (curve : ToneCurve)
    (strength : ℚ) (pts : Option (List CurvePoint)) (i : ℕ) :
    ((rawChannel powFn curve strength pts i : ℚ) ≤
        sampleValue powFn curve strength pts i * 65535) ∧
    (sampleValue powFn curve strength pts i * 65535 <
        (rawChannel powFn curve strength pts i : ℚ) + 1) ∧
    buildRamp powFn curve strength pts =
      enforceMonotonicity
        ⟨rawChannel powFn curve strength pts, rawChannel powFn curve strength pts,
          rawChannel powFn curve strength pts⟩ := by
  have hnn : (0 : ℚ) ≤ sampleValue powFn curve strength pts i * 65535 := by
    have := sampleValue_nonneg powFn curve strength pts i
    nlinarith
  have hfl : (0 : ℤ) ≤ ⌊sampleValue powFn curve strength pts i * 65535⌋ :=
    Int.floor_nonneg.mpr hnn
  have hcast : ((rawChannel powFn curve strength pts i : ℤ) : ℚ) =
      ((⌊sampleValue powFn curve strength pts i * 65535⌋ : ℤ) : ℚ) := by
    unfold rawChannel quantize
    rw [Int.toNat_of_nonneg hfl]
  have hcast' : (rawChannel powFn curve strength pts i : ℚ) =
      ((⌊sampleValue powFn curve strength pts i * 65535⌋ : ℤ) : ℚ) := by
    push_cast at hcast ⊢
    exact hcast
  refine ⟨?_, ?_, rfl⟩
  · rw [hcast']
    exact Int.floor_le _
  · rw [hcast']
    exact Int.lt_floor_add_one _

/-- Constant-zero stand-in for the pow parameter; the curves below never
call it. -/
def powZero : ℚ → ℚ → ℚ := fun _ _ => 0

/-- Concrete custom curve used to exhibit truncation: the segment from
(0, 0) to (1, 0.51). -/
def c5pts : List CurvePoint := [⟨0, 0⟩, ⟨1, 51 / 100⟩]

lemma c5raw_lt : ∀ j, j < 10 →
    rawChannel powZero ToneCurve.Custom 1 (some c5pts) j <
      rawChannel powZero ToneCurve.Custom 1 (some c5pts) (j + 1) := by
  intro j hj
  interval_cases j <;>
    norm_num [rawChannel, quantize, sampleValue, toneEval, evalCustom, interpSearch,
      clampStrength, c5pts, powZero, List.getLast, min_def]

lemma c5sample10 : sampleValue powZero ToneCurve.Custom 1 (some c5pts) 10 = 1 / 50 := by
  norm_num [sampleValue, toneEval, evalCustom, interpSearch, clampStrength, c5pts,
    powZero, List.getLast, min_def]

/-- C5 counterexample: for the Custom curve through (0,0) and (1,0.51)
at sample index 10 the clamped output is 1/50, so round(v·65535) =
round(1310.7) = 1311, but the ramp entry produced by buildRamp is the
truncated 1310. -/
theorem c5_round_counterexample :
    (buildRamp powZero ToneCurve.Custom 1 (some c5pts)).red 10 = 1310 ∧
    round (sampleValue powZero ToneCurve.Custom 1 (some c5pts) 10 * 65535) = 1311 ∧
    ((buildRamp powZero ToneCurve.Custom 1 (some c5pts)).red 10 : ℤ) ≠
      round (sampleValue powZero ToneCurve.Custom 1 (some c5pts) 10 * 65535) := by
  have hred : (buildRamp powZero ToneCurve.Custom 1 (some c5pts)).red 10 = 1310 := by
    show enforceChannel (rawChannel powZero ToneCurve.Custom 1 (some c5pts)) 10 = 1310
    rw [enforceChannel_eq_of_strict _ _ c5raw_lt]
    show quantize (sampleValue powZero ToneCurve.Custom 1 (some c5pts) 10) = 1310
    rw [c5sample10]
    unfold quantize
    have h13 : ⌊(1 / 50 : ℚ) * 65535⌋ = 1310 := by norm_num
    rw [h13]
    rfl
  have hround : round (sampleValue powZero ToneCurve.Custom 1 (some c5pts) 10 * 65535)
      = 1311 := by
    rw [c5sample10, round_eq]
    norm_num
  refine ⟨hred, hround, ?_⟩
  rw [hred, hround]
  norm_num

/-! Custom-curve fallback: a missing or too-short control-point list makes
the Custom curve evaluate as the identity, i.e. as the Linear curve. -/

lemma evalCustom_short {ps : List CurvePoint} (h : ps.length < 2) (l : ℚ) :
    evalCustom ps l = l := by
  rcases ps with _ | ⟨p, _ | ⟨q, rest⟩⟩
  · rfl
  · rfl
  · exfalso
    simp only [List.length_cons] at h
    omega

/-- C10: with a null control-point list, or one holding fewer than two
points, buildRamp for the Custom curve produces exactly the ramp of the
Linear curve at the same strength. -/
theorem c10_custom_fallback_linear (powFn : ℚ → ℚ → ℚ) (strength : ℚ) :
    buildRamp powFn ToneCurve.Custom strength none =
      buildRamp powFn ToneCurve.Linear strength none ∧
    ∀ ps : List CurvePoint, ps.length < 2 →
      buildRamp powFn ToneCurve.Custom strength (some ps) =
        buildRamp powFn ToneCurve.Linear strength (some ps) := by
  constructor
  · rfl
  · intro ps hps
    have heval : ∀ l : ℚ, toneEval powFn ToneCurve.Custom (clampStrength strength)
        (some ps) l = toneEval powFn ToneCurve.Linear (clampStrength strength)
        (some ps) l := by
      intro l
      show evalCustom ps l = l
      exact evalCustom_short hps l
    have hraw : rawChannel powFn ToneCurve.Custom strength (some ps) =
        rawChannel powFn ToneCurve.Linear strength (some ps) := by
      funext i
      unfold rawChannel sampleValue
      simp only [heval]
    unfold buildRamp
    rw [hraw]

/-- Witness for C10: the empty list has fewer than two points and the
fallback equality holds there. -/
theorem c10_custom_fallback_linear_witness :
    ([] : List CurvePoint).length < 2 ∧
      buildRamp powZero ToneCurve.Custom 1 (some []) =
        buildRamp powZero ToneCurve.Linear 1 (some []) :=
  ⟨by norm_num, (c10_custom_fallback_linear powZero 1).2 [] (by norm_num)⟩

/-! Custom-curve evaluation: piecewise-linear interpolation between the
surrounding control points, for strictly ascending control-point lists. -/

/-- Strict ascending order on control-point x-coordinates. -/
def ltX (a b : CurvePoint) : Prop := a.x < b.x

lemma x_le_getLast (t : List CurvePoint) (ht : t ≠ []) (hp : t.Pairwise ltX) :
    ∀ r ∈ t, r.x ≤ (t.getLast ht).x := by
  induction t with
  | nil => exact absurd rfl ht
  | cons a t' ih =>
    intro r hr
    rcases t' with _ | ⟨b, t''⟩
    · rcases List.mem_singleton.mp hr with rfl
      exact le_refl _
    · rw [List.getLast_cons (by simp)]
      rcases List.mem_cons.mp hr with rfl | hr'
      · have hlt := (List.pairwise_cons.mp hp).1
        exact le_of_lt (hlt _ (List.getLast_mem (by simp)))
      · exact ih (by simp) (List.pairwise_cons.mp hp).2 r hr'

lemma getLast_or_lt (t : List CurvePoint) (ht : t ≠ []) (hp : t.Pairwise ltX) :
    ∀ r ∈ t, r = t.getLast ht ∨ r.x < (t.getLast ht).x := by
  induction t with
  | nil => exact absurd rfl ht
  | cons a t' ih =>
    intro r hr
    rcases t' with _ | ⟨b, t''⟩
    · rcases List.mem_singleton.mp hr with rfl
      exact Or.inl rfl
    · rw [List.getLast_cons (by simp)]
      rcases List.mem_cons.mp hr with rfl | hr'
      · have hlt := (List.pairwise_cons.mp hp).1
        exact Or.inr (hlt _ (List.getLast_mem (by simp)))
      · exact ih (by simp) (List.pairwise_cons.mp hp).2 r hr'

lemma head_x_le_getElem (t : List CurvePoint) (c : CurvePoint) (k : ℕ)
    (hp : (c :: t).Pairwise ltX) (a : CurvePoint) (hk : (c :: t)[k]? = some a) :
    c.x ≤ a.x := by
  rcases k with _ | k
  · simp only [List.getElem?_cons_zero, Option.some.injEq] at hk
    rw [hk]
  · simp only [List.getElem?_cons_succ] at hk
    have ha : a ∈ t := List.getElem?_mem hk
    exact le_of_lt ((List.pairwise_cons.mp hp).1 a ha)

lemma interpSearch_hit (t : List CurvePoint) :
    ∀ a : CurvePoint, (a :: t).Pairwise ltX →
      ∀ r ∈ t, interpSearch r.x (a :: t) = r.y := by
  induction t with
  | nil => intro a _ r hr; exact absurd hr (by simp)
  | cons b t' ih =>
    intro a hp r hr
    have hab : a.x < b.x := (List.pairwise_cons.mp hp).1 b (by simp)
    rcases List.mem_cons.mp hr with rfl | hr'
    · unfold interpSearch
      rw [if_pos ⟨le_of_lt hab, le_refl _⟩, if_pos hab]
      have hne : r.x - a.x ≠ 0 := sub_ne_zero.mpr (ne_of_gt hab)
      field_simp
    · have hbr : b.x < r.x := (List.pairwise_cons.mp (List.pairwise_cons.mp hp).2).1 r hr'
      unfold interpSearch
      rw [if_neg (by rintro ⟨-, h2⟩; exact absurd h2 (not_le.mpr hbr))]
      exact ih b (List.pairwise_cons.mp hp).2 r hr'

lemma interpSearch_segment :
    ∀ (ps : List CurvePoint) (j : ℕ) (a b : CurvePoint) (l : ℚ),
      ps.Pairwise ltX → ps[j]? = some a → ps[j + 1]? = some b →
      a.x < l → l < b.x →
      interpSearch l ps = a.y + (l - a.x) / (b.x - a.x) * (b.y - a.y) := by
  intro ps
  induction ps with
  | nil => intro j a b l _ h1 _ _ _; simp at h1
  | cons c t ih =>
    intro j a b l hp h1 h2 hal hlb
    rcases t with _ | ⟨d, t'⟩
    · rcases j with _ | j <;> simp at h2
    · rcases j with _ | k
      · simp only [List.getElem?_cons_zero, Option.some.injEq] at h1
        simp only [List.getElem?_cons_succ, List.getElem?_cons_zero,
          Option.some.injEq] at h2
        rw [← h1] at hal ⊢
        rw [← h2] at hlb ⊢
        have hcd : c.x < d.x := lt_trans hal hlb
        unfold interpSearch
        rw [if_pos ⟨le_of_lt hal, le_of_lt hlb⟩, if_pos hcd]
      · rw [List.getElem?_cons_succ] at h1
        rw [List.getElem?_cons_succ] at h2
        have hda : d.x ≤ a.x :=
          head_x_le_getElem t' d k (List.pairwise_cons.mp hp).2 a h1
        unfold interpSearch
        rw [if_neg (by rintro ⟨-, h⟩; exact absurd h (not_le.mpr (lt_of_le_of_lt hda hal)))]
        exact ih k a b l (List.pairwise_cons.mp hp).2 h1 h2 hal hlb

lemma evalCustom_cons_cons (p q : CurvePoint) (rest : List CurvePoint) (l : ℚ) :
    evalCustom (p :: q :: rest) l =
      if l ≤ p.x then p.y
      else if ((q :: rest).getLast (by simp)).x ≤ l then
        ((q :: rest).getLast (by simp)).y
      else interpSearch l (p :: q :: rest) := rfl

/-- C6: for a strictly ascending control-point list of at least two
points, Custom evaluation returns each control point's y exactly at its
x; clamps to the first point's y at or below its x and to the last
point's y at or above its x; interpolates linearly between the
surrounding points strictly inside a segment; and on the concrete list
[(0,0), (0.5,0.7), (1,1)] input 0.25 evaluates to 0.35. -/
theorem c6_custom_piecewise_linear (p q : CurvePoint) (rest : List CurvePoint)
    (hs : (p :: q :: rest).Pairwise ltX) :
    (∀ r ∈ p :: q :: rest, evalCustom (p :: q :: rest) r.x = r.y) ∧
    (∀ l : ℚ, l ≤ p.x → evalCustom (p :: q :: rest) l = p.y) ∧
    (∀ l : ℚ, ((q :: rest).getLast (by simp)).x ≤ l →
        evalCustom (p :: q :: rest) l = ((q :: rest).getLast (by simp)).y) ∧
    (∀ (l : ℚ) (j : ℕ) (a b : CurvePoint), (p :: q :: rest)[j]? = some a →
        (p :: q :: rest)[j + 1]? = some b → a.x < l → l < b.x →
        evalCustom (p :: q :: rest) l = a.y + (l - a.x) / (b.x - a.x) * (b.y - a.y)) ∧
    evalCustom [⟨0, 0⟩, ⟨1 / 2, 7 / 10⟩, ⟨1, 1⟩] (1 / 4) = 7 / 20 := by
  have hpq := List.pairwise_cons.mp hs
  have htail : (q :: rest).Pairwise ltX := hpq.2
  refine ⟨?_, ?_, ?_, ?_, ?_⟩
  · intro r hr
    rcases List.mem_cons.mp hr with rfl | hr'
    · show evalCustom (r :: q :: rest) r.x = r.y
      rw [evalCustom_cons_cons, if_pos (le_refl _)]
    · have hpr : p.x < r.x := hpq.1 r hr'
      rw [evalCustom_cons_cons, if_neg (not_le.mpr hpr)]
      rcases getLast_or_lt (q :: rest) (by simp) htail r hr' with heq | hlt
      · rw [if_pos (by rw [← heq])]
        rw [← heq]
      · rw [if_neg (not_le.mpr hlt)]
        exact interpSearch_hit (q :: rest) p hs r hr'
  · intro l hl
    rw [evalCustom_cons_cons, if_pos hl]
  · intro l hl
    have hplast : p.x < ((q :: rest).getLast (by simp)).x :=
      hpq.1 _ (List.getLast_mem (by simp))
    rw [evalCustom_cons_cons, if_neg (not_le.mpr (lt_of_lt_of_le hplast hl)), if_pos hl]
  · intro l j a b h1 h2 hal hlb
    have hpa : p.x ≤ a.x := head_x_le_getElem (q :: rest) p j hs a h1
    have hbmem : b ∈ q :: rest := by
      rw [List.getElem?_cons_succ] at h2
      exact List.getElem?_mem h2
    have hblast : b.x ≤ ((q :: rest).getLast (by simp)).x :=
      x_le_getLast (q :: rest) (by simp) htail b hbmem
    rw [evalCustom_cons_cons, if_neg (not_le.mpr (lt_of_le_of_lt hpa hal)),
      if_neg (not_le.mpr (lt_of_lt_of_le hlb hblast))]
    exact interpSearch_segment (p :: q :: rest) j a b l hs h1 h2 hal hlb
  · norm_num [evalCustom, interpSearch, List.getLast]

/-- Witness for C6 at the concrete list [(0,0), (0.5,0.7), (1,1)]: the
list is strictly ascending, the middle control point is hit exactly, and
0.25 interpolates to 0.35. -/
theorem c6_custom_piecewise_linear_witness :
    ([⟨0, 0⟩, ⟨1 / 2, 7 / 10⟩, (⟨1, 1⟩ : CurvePoint)]).Pairwise ltX ∧
    evalCustom [⟨0, 0⟩, ⟨1 / 2, 7 / 10⟩, ⟨1, 1⟩] (1 / 2) = 7 / 10 ∧
    evalCustom [⟨0, 0⟩, ⟨1 / 2, 7 / 10⟩, ⟨1, 1⟩] (1 / 4) = 7 / 20 := by
  have hs : ([⟨0, 0⟩, ⟨1 / 2, 7 / 10⟩, (⟨1, 1⟩ : CurvePoint)]).Pairwise ltX := by
    norm_num [List.pairwise_cons, ltX]
  have h := c6_custom_piecewise_linear ⟨0, 0⟩ ⟨1 / 2, 7 / 10⟩ [⟨1, 1⟩] hs
  refine ⟨hs, ?_, h.2.2.2.2⟩
  have hmid := h.1 ⟨1 / 2, 7 / 10⟩ (by simp)
  exact hmid

/-! The Adaptive Application Engine (Gamma.applyRampAdaptive,
lines 212-271).  The OS acceptance oracle — SetDeviceGammaRamp's return
value and the read-back comparison of verifyRamp — is abstracted as two
Bool functions of the probed scale: for a fixed display and target ramp
the blended ramp written at an attempt is a function of the probed scale
alone, so a deterministic oracle (spec section 4.4 requires determinism)
factors through the scale.  setOk s models the write call's return for
the ramp blended at scale s; verifyOk s models the read-back comparison
for it. -/

/-- MonitorInfo (gamma.h / gamma.cpp): the fields the engine reads and
writes.  Enumeration identity fields (handle, names, primary flag) play
no part in the verified claims. -/
structure MonitorInfo where
  has_original : Bool
  original_ramp : GammaRamp
  safe_scale : ℚ

/-- Modelled from the spec: the declaration of MonitorInfo's safe_scale
field with its initializer is missing from src/ (gamma.cpp uses the
field, but the gamma.h revisions shipped there predate it).  Spec
section 3 declares safe_scale in [0,1] seeded at the full value, and the
convergence scenario starts it at its initial full value so that the
first probe is min(1.0, safe_scale * 1.05); the initial value is
therefore 1.0. -/
def initialSafeScale : ℚ := 1

/-- Mutable state of the bisection loop of applyRampAdaptive. -/
structure LoopCore where
  low : ℚ
  high : ℚ
  last_good : GammaRamp
  any_success : Bool
  safe_scale : ℚ

/-- Record of one attempt of the loop: probed scale, the ramp written,
whether the write call failed hard, whether the read-back accepted it,
and the search bounds right after the attempt's update. -/
structure AttemptRec where
  tryScale : ℚ
  wrote : GammaRamp
  hardFail : Bool
  accepted : Bool
  lowAfter : ℚ
  highAfter : ℚ

/-- The for-loop of applyRampAdaptive (lines 228-256), one list element
per remaining attempt index (the source iterates attempt = 0..5).  On
attempt 0 the probe is high, afterwards the midpoint; the blended ramp
gets the monotonicity pass and is written; a hard write failure or a
failed read-back shrinks high to the probed scale; an accepted probe
raises low, saves last_good and safe_scale, and breaks once
high - low < 0.02.  Returns the final loop state and the trace of
attempts made. -/
def adaptiveLoop (setOk verifyOk : ℚ → Bool) (ideal ident : GammaRamp) :
    List ℕ → LoopCore → LoopCore × List AttemptRec
  | [], st => (st, [])
  | a :: rest, st =>
    let tryScale := if a = 0 then st.high else (st.low + st.high) / 2
    let blended := enforceMonotonicity (blendRampTowardIdentity ideal ident tryScale)
    if setOk tryScale then
      if verifyOk tryScale then
        let st2 : LoopCore := ⟨tryScale, st.high, blended, true, tryScale⟩
        let att : AttemptRec := ⟨tryScale, blended, false, true, tryScale, st.high⟩
        if st.high - tryScale < 1 / 50 then (st2, [att])
        else
          let next := adaptiveLoop setOk verifyOk ideal ident rest st2
          (next.1, att :: next.2)
      else
        let st2 : LoopCore := ⟨st.low, tryScale, st.last_good, st.any_success, st.safe_scale⟩
        let att : AttemptRec := ⟨tryScale, blended, false, false, st.low, tryScale⟩
        let next := adaptiveLoop setOk verifyOk ideal ident rest st2
        (next.1, att :: next.2)
    else
      let st2 : LoopCore := ⟨st.low, tryScale, st.last_good, st.any_success, st.safe_scale⟩
      let att : AttemptRec := ⟨tryScale, blended, true, false, st.low, tryScale⟩
      let next := adaptiveLoop setOk verifyOk ideal ident rest st2
      (next.1, att :: next.2)

/-- Outcome of applyRampAdaptive: the returned flag, the safe_scale left
in the monitor, the attempt trace, and the ramps written after the loop
(the re-applied last_good, or the identity fallback). -/
structure AdaptiveResult where
  success : Bool
  safe_scale : ℚ
  trace : List AttemptRec
  finalWrites : List GammaRamp

/-- Ramps of the attempts the oracle accepted. -/
def acceptedWrites (r : AdaptiveResult) : List GammaRamp :=
  (r.trace.filter (fun att => att.accepted)).map (fun att => att.wrote)

/-- Gamma.applyRampAdaptive (lines 212-271): seed the bounds from the
monitor's safe scale expanded by 5 percent and capped at 1, run up to 6
attempts, then either re-apply last_good (when the final probe differs
from it) and report success, or write the identity fallback, floor
safe_scale at 0.1 and report failure. -/
def applyRampAdaptive (setOk verifyOk : ℚ → Bool) (m : MonitorInfo)
    (ideal : GammaRamp) : AdaptiveResult × MonitorInfo :=
  let ident := buildIdentityRamp
  let s0 := min 1 (m.safe_scale * (21 / 20))
  let r := adaptiveLoop setOk verifyOk ideal ident [0, 1, 2, 3, 4, 5]
    ⟨0, s0, ident, false, m.safe_scale⟩
  if r.1.any_success then
    (⟨true, r.1.safe_scale, r.2,
        if r.1.high ≠ r.1.low then [r.1.last_good] else []⟩,
      ⟨m.has_original, m.original_ramp, r.1.safe_scale⟩)
  else
    (⟨false, 1 / 10, r.2, [ident]⟩, ⟨m.has_original, m.original_ramp, 1 / 10⟩)

/-- The loop of Gamma.applyAll (lines 393-404) over the monitor list:
returns the conjoined flag, the updated monitors and the per-monitor
adaptive results.  Oracles are per-monitor (indexed), mirroring
independent displays. -/
def applyAllGo (setOk verifyOk : ℕ → ℚ → Bool) (ramp : GammaRamp) :
    List MonitorInfo → ℕ → Bool × List MonitorInfo × List AdaptiveResult
  | [], _ => (true, [], [])
  | m :: rest, idx =>
    let r := applyRampAdaptive (setOk idx) (verifyOk idx) m ramp
    let next := applyAllGo setOk verifyOk ramp rest (idx + 1)
    (r.1.success && next.1, r.2 :: next.2.1, r.1 :: next.2.2)

/-- Gamma.applyAll (lines 393-404): build the ramp once, adaptively apply
it to every display, and report success only if every display reported
success. -/
def applyAll (powFn : ℚ → ℚ → ℚ) (setOk verifyOk : ℕ → ℚ → Bool)
    (curve : ToneCurve) (strength : ℚ) (pts : Option (List CurvePoint))
    (ms : List MonitorInfo) : Bool × List MonitorInfo × List AdaptiveResult :=
  applyAllGo setOk verifyOk (buildRamp powFn curve strength pts) ms 0

/-! C3: total rejection falls back to the identity ramp. -/

lemma adaptiveLoop_all_rejected (setOk verifyOk : ℚ → Bool) (ideal ident : GammaRamp)
    (h : ∀ s, setOk s = false ∨ verifyOk s = false) :
    ∀ (as : List ℕ) (st : LoopCore),
      (adaptiveLoop setOk verifyOk ideal ident as st).1.any_success = st.any_success ∧
      (adaptiveLoop setOk verifyOk ideal ident as st).1.safe_scale = st.safe_scale ∧
      ∀ att ∈ (adaptiveLoop setOk verifyOk ideal ident as st).2, att.accepted = false := by
  intro as
  induction as with
  | nil => intro st; exact ⟨rfl, rfl, by simp [adaptiveLoop]⟩
  | cons a rest ih =>
    intro st
    simp only [adaptiveLoop]
    rcases h (if a = 0 then st.high else (st.low + st.high) / 2) with hso | hvo
    · rw [hso]
      simp only [Bool.false_eq_true, if_false]
      refine ⟨(ih _).1, (ih _).2.1, ?_⟩
      intro att hatt
      rcases List.mem_cons.mp hatt with rfl | hatt'
      · rfl
      · exact (ih _).2.2 att hatt'
    · by_cases hso : setOk (if a = 0 then st.high else (st.low + st.high) / 2) = true
      · rw [hso, hvo]
        simp only [if_true, Bool.false_eq_true, if_false]
        refine ⟨(ih _).1, (ih _).2.1, ?_⟩
        intro att hatt
        rcases List.mem_cons.mp hatt with rfl | hatt'
        · rfl
        · exact (ih _).2.2 att hatt'
      · rw [Bool.not_eq_true] at hso
        rw [hso]
        simp only [Bool.false_eq_true, if_false]
        refine ⟨(ih _).1, (ih _).2.1, ?_⟩
        intro att hatt
        rcases List.mem_cons.mp hatt with rfl | hatt'
        · rfl
        · exact (ih _).2.2 att hatt'

/-- C3: when no probe is ever accepted (every write fails hard or every
read-back mismatches, at every scale), applyRampAdaptive returns failure,
sets the monitor's safe_scale to 0.1, ends by writing exactly the
identity ramp, and accepted no write — the display is never left at an
unverified intermediate ramp. -/
theorem c3_total_rejection_fallback (setOk verifyOk : ℚ → Bool) (m : MonitorInfo)
    (ideal : GammaRamp) (h : ∀ s, setOk s = false ∨ verifyOk s = false) :
    (applyRampAdaptive setOk verifyOk m ideal).1.success = false ∧
    (applyRampAdaptive setOk verifyOk m ideal).2.safe_scale = 1 / 10 ∧
    (applyRampAdaptive setOk verifyOk m ideal).1.finalWrites = [buildIdentityRamp] ∧
    acceptedWrites (applyRampAdaptive setOk verifyOk m ideal).1 = [] := by
  have hrun := adaptiveLoop_all_rejected setOk verifyOk ideal buildIdentityRamp h
    [0, 1, 2, 3, 4, 5] ⟨0, min 1 (m.safe_scale * (21 / 20)), buildIdentityRamp,
      false, m.safe_scale⟩
  unfold applyRampAdaptive
  rw [if_neg (by rw [hrun.1]; exact Bool.false_ne_true)]
  refine ⟨rfl, rfl, rfl, ?_⟩
  unfold acceptedWrites
  rw [List.filter_eq_nil_iff.mpr (fun att hatt => by simp [hrun.2.2 att hatt]), List.map_nil]

/-- Monitor used for concrete engine runs: an original was captured and
safe_scale starts at its initial full value. -/
def mon0 : MonitorInfo := ⟨true, buildIdentityRamp, initialSafeScale⟩

/-- Oracle that rejects every write outright. -/
def rejectAllOracle : ℚ → Bool := fun _ => false

/-- Witness for C3: the always-hard-failing oracle satisfies the
total-rejection hypothesis and the fallback conclusions hold for it. -/
theorem c3_total_rejection_fallback_witness :
    (∀ s : ℚ, rejectAllOracle s = false ∨ rejectAllOracle s = false) ∧
    ((applyRampAdaptive rejectAllOracle rejectAllOracle mon0 buildIdentityRamp).1.success
        = false ∧
      (applyRampAdaptive rejectAllOracle rejectAllOracle mon0 buildIdentityRamp).2.safe_scale
        = 1 / 10 ∧
      (applyRampAdaptive rejectAllOracle rejectAllOracle mon0 buildIdentityRamp).1.finalWrites
        = [buildIdentityRamp] ∧
      acceptedWrites
          (applyRampAdaptive rejectAllOracle rejectAllOracle mon0 buildIdentityRamp).1
        = []) :=
  ⟨fun _ => Or.inl rfl,
    c3_total_rejection_fallback rejectAllOracle rejectAllOracle mon0 buildIdentityRamp
      (fun _ => Or.inl rfl)⟩

/-! C2: convergence against the oracle accepting scales at or below 0.6. -/

/-- Oracle whose write call always reports success. -/
def acceptAllOracle : ℚ → Bool := fun _ => true

/-- Read-back oracle accepting exactly the probed scales at or below 0.6. -/
def acceptUpTo06 : ℚ → Bool := fun s => if s ≤ 3 / 5 then true else false

/-- C2: starting from safe_scale at its initial full value, against the
oracle that accepts every probed scale at or below 0.6 and rejects every
probed scale above it, applyRampAdaptive returns success within its 6
attempts and leaves safe_scale at 19/32 = 0.59375, inside [0.58, 0.62]. -/
theorem c2_converges_to_safe_scale (ideal : GammaRamp) (m : MonitorInfo)
    (hm : m.safe_scale = initialSafeScale) :
    (applyRampAdaptive acceptAllOracle acceptUpTo06 m ideal).1.success = true ∧
    (applyRampAdaptive acceptAllOracle acceptUpTo06 m ideal).2.safe_scale = 19 / 32 ∧
    ((29 : ℚ) / 50 ≤ 19 / 32 ∧ (19 : ℚ) / 32 ≤ 31 / 50) ∧
    (applyRampAdaptive acceptAllOracle acceptUpTo06 m ideal).1.trace.length = 6 := by
  unfold applyRampAdaptive
  rw [hm]
  norm_num [initialSafeScale, adaptiveLoop, acceptAllOracle, acceptUpTo06, min_def]

/-- Witness for C2: the concrete monitor mon0 starts at the initial full
safe_scale and the convergence conclusions hold for it. -/
theorem c2_converges_to_safe_scale_witness :
    mon0.safe_scale = initialSafeScale ∧
    ((applyRampAdaptive acceptAllOracle acceptUpTo06 mon0 buildIdentityRamp).1.success
        = true ∧
      (applyRampAdaptive acceptAllOracle acceptUpTo06 mon0 buildIdentityRamp).2.safe_scale
        = 19 / 32 ∧
      ((29 : ℚ) / 50 ≤ 19 / 32 ∧ (19 : ℚ) / 32 ≤ 31 / 50) ∧
      (applyRampAdaptive acceptAllOracle acceptUpTo06 mon0 buildIdentityRamp).1.trace.length
        = 6) :=
  ⟨rfl, c2_converges_to_safe_scale buildIdentityRamp mon0 rfl⟩

/-! C9: applyAll success and accepted ramps.  The Linear curve builds a
ramp equal to the identity ramp, blending identity toward identity gives
the identity at every scale, so a run can succeed with only
identity-equal ramps accepted. -/

lemma blendEntry_self (v : ℕ) (s : ℚ) (hv : v ≤ 65535) : blendEntry v v s = v := by
  unfold blendEntry
  have hval : (v : ℚ) + s * ((v : ℚ) - (v : ℚ)) = (v : ℚ) := by ring
  rw [hval, max_eq_left (by positivity),
    min_eq_left (by exact_mod_cast hv), Int.floor_natCast, Int.toNat_natCast]

lemma blendRamp_identity_self (s : ℚ) :
    blendRampTowardIdentity buildIdentityRamp buildIdentityRamp s = buildIdentityRamp := by
  ext i <;> exact blendEntry_self _ s (Nat.min_le_right _ _)

lemma enforceChannel_eq_of_incr (raw : Channel)
    (h : ∀ j, raw j < raw (j + 1) ∨ (raw j = 65535 ∧ raw (j + 1) = 65535)) :
    ∀ n, enforceChannel raw n = raw n := by
  intro n
  induction n with
  | zero => rfl
  | succ m ih =>
    rw [enforceChannel_succ, ih]
    rcases h m with hlt | ⟨h1, h2⟩
    · rw [if_neg (not_le.mpr hlt)]
    · rw [h1, h2]
      norm_num

lemma enforce_identity : enforceMonotonicity buildIdentityRamp = buildIdentityRamp := by
  have hch : enforceChannel (fun i => min (i * 257) 65535) =
      fun i => min (i * 257) 65535 := by
    funext n
    refine enforceChannel_eq_of_incr _ (fun j => ?_) n
    omega
  show enforceMonotonicity ⟨_, _, _⟩ = _
  unfold enforceMonotonicity
  simp only [hch]
  rfl

lemma sampleValue_linear (powFn : ℚ → ℚ → ℚ) (strength : ℚ)
    (pts : Option (List CurvePoint)) (i : ℕ) :
    sampleValue powFn ToneCurve.Linear strength pts i =
      if (i : ℚ) / 255 ≤ 1 then (i : ℚ) / 255 else 1 := by
  have hl : (0 : ℚ) ≤ (i : ℚ) / 255 := by positivity
  unfold sampleValue toneEval
  simp only
  rcases le_or_lt ((i : ℚ) / 255) 1 with hle | hgt
  · rw [if_neg (not_lt.mpr hl), if_neg (not_lt.mpr hle), if_neg (not_lt.mpr hl),
      if_neg (not_lt.mpr (le_min_iff.mpr ⟨hle, by linarith⟩)), if_pos hle]
  · rw [if_neg (not_lt.mpr hl), if_pos hgt, if_neg (by norm_num : ¬(1 : ℚ) < 0),
      if_neg (not_lt.mpr (le_min_iff.mpr ⟨le_refl 1, by linarith⟩)),
      if_neg (not_le.mpr hgt)]

lemma buildRamp_linear (powFn : ℚ → ℚ → ℚ) (strength : ℚ)
    (pts : Option (List CurvePoint)) :
    buildRamp powFn ToneCurve.Linear strength pts = buildIdentityRamp := by
  have hraw : rawChannel powFn ToneCurve.Linear strength pts =
      fun i => min (i * 257) 65535 := by
    funext i
    unfold rawChannel quantize
    rw [sampleValue_linear]
    by_cases hi : (i : ℚ) / 255 ≤ 1
    · rw [if_pos hi]
      have hmul : (i : ℚ) / 255 * 65535 = ((i * 257 : ℕ) : ℚ) := by
        push_cast
        field_simp
        ring
      rw [hmul, Int.floor_natCast, Int.toNat_natCast]
      have hi' : i ≤ 255 := by
        by_contra hgt
        push_neg at hgt
        have : (1 : ℚ) < (i : ℚ) / 255 := by
          rw [lt_div_iff₀ (by norm_num)]
          exact_mod_cast by omega
        exact absurd hi (not_le.mpr this)
      omega
    · rw [if_neg hi]
      have hi' : 256 ≤ i := by
        by_contra hlt
        push_neg at hlt
        refine hi ?_
        rw [div_le_one (by norm_num)]
        exact_mod_cast by omega
      have : ⌊(1 : ℚ) * 65535⌋ = 65535 := by norm_num
      rw [this]
      omega
  unfold buildRamp
  rw [hraw]
  exact enforce_identity

/-- Per-display oracle families that accept everything. -/
def acceptAllMonOracle : ℕ → ℚ → Bool := fun _ _ => true

/-- C9 counterexample: applying the Linear curve to one display with an
all-accepting oracle, applyAll returns true although the only blended
ramp the oracle ever accepted is exactly the identity ramp. -/
theorem c9_identity_only_counterexample :
    (applyAll powZero acceptAllMonOracle acceptAllMonOracle ToneCurve.Linear 1 none
        [mon0]).1 = true ∧
    ((applyAll powZero acceptAllMonOracle acceptAllMonOracle ToneCurve.Linear 1 none
        [mon0]).2.2.map acceptedWrites) = [[buildIdentityRamp]] := by
  unfold applyAll
  rw [buildRamp_linear]
  norm_num [applyAllGo, applyRampAdaptive, adaptiveLoop, acceptedWrites,
    blendRamp_identity_self, enforce_identity, acceptAllMonOracle, mon0,
    initialSafeScale, min_def]

lemma adaptiveLoop_success_mono (setOk verifyOk : ℚ → Bool) (ideal ident : GammaRamp) :
    ∀ (as : List ℕ) (st : LoopCore), st.any_success = true →
      (adaptiveLoop setOk verifyOk ideal ident as st).1.any_success = true := by
  intro as
  induction as with
  | nil => intro st hst; exact hst
  | cons a rest ih =>
    intro st hst
    simp only [adaptiveLoop]
    generalize (if a = 0 then st.high else (st.low + st.high) / 2) = t
    by_cases hso : setOk t = true
    · rw [if_pos hso]
      by_cases hvo : verifyOk t = true
      · rw [if_pos hvo]
        by_cases hbr : st.high - t < 1 / 50
        · rw [if_pos hbr]
        · rw [if_neg hbr]
          exact ih _ rfl
      · rw [if_neg hvo]
        exact ih _ hst
    · rw [if_neg hso]
      exact ih _ hst

lemma adaptiveLoop_success_iff (setOk verifyOk : ℚ → Bool) (ideal ident : GammaRamp) :
    ∀ (as : List ℕ) (st : LoopCore),
      (adaptiveLoop setOk verifyOk ideal ident as st).1.any_success = true ↔
        (st.any_success = true ∨
          ∃ att ∈ (adaptiveLoop setOk verifyOk ideal ident as st).2,
            att.accepted = true) := by
  intro as
  induction as with
  | nil =>
    intro st
    simp [adaptiveLoop]
  | cons a rest ih =>
    intro st
    simp only [adaptiveLoop]
    generalize (if a = 0 then st.high else (st.low + st.high) / 2) = t
    by_cases hso : setOk t = true
    · rw [if_pos hso]
      by_cases hvo : verifyOk t = true
      · rw [if_pos hvo]
        by_cases hbr : st.high - t < 1 / 50
        · rw [if_pos hbr]
          simp
        · rw [if_neg hbr]
          constructor
          · intro _
            exact Or.inr ⟨_, List.mem_cons_self _ _, rfl⟩
          · intro _
            exact adaptiveLoop_success_mono setOk verifyOk ideal ident rest _ rfl
      · rw [if_neg hvo]
        rw [ih]
        simp
    · rw [if_neg hso]
      rw [ih]
      simp

lemma applyRampAdaptive_success_iff (setOk verifyOk : ℚ → Bool) (m : MonitorInfo)
    (ideal : GammaRamp) :
    (applyRampAdaptive setOk verifyOk m ideal).1.success = true ↔
      acceptedWrites (applyRampAdaptive setOk verifyOk m ideal).1 ≠ [] := by
  unfold applyRampAdaptive
  have hiff := adaptiveLoop_success_iff setOk verifyOk ideal buildIdentityRamp
    [0, 1, 2, 3, 4, 5] ⟨0, min 1 (m.safe_scale * (21 / 20)), buildIdentityRamp,
      false, m.safe_scale⟩
  rw [show (⟨0, min 1 (m.safe_scale * (21 / 20)), buildIdentityRamp, false,
      m.safe_scale⟩ : LoopCore).any_success = false from rfl] at hiff
  simp only [Bool.false_eq_true, false_or] at hiff
  by_cases hany : (adaptiveLoop setOk verifyOk ideal buildIdentityRamp
      [0, 1, 2, 3, 4, 5] ⟨0, min 1 (m.safe_scale * (21 / 20)), buildIdentityRamp,
        false, m.safe_scale⟩).1.any_success = true
  · rw [if_pos hany]
    simp only [acceptedWrites]
    constructor
    · intro _ hnil
      rw [List.map_eq_nil_iff, List.filter_eq_nil_iff] at hnil
      obtain ⟨att, hmem, hacc⟩ := hiff.mp hany
      exact hnil att hmem (by simp [hacc])
    · intro _
      trivial
  · rw [if_neg hany]
    simp only [acceptedWrites]
    constructor
    · intro hfalse
      exact absurd hfalse (by simp)
    · intro hne
      exfalso
      apply hany
      apply hiff.mpr
      have hfil : ((adaptiveLoop setOk verifyOk ideal buildIdentityRamp
          [0, 1, 2, 3, 4, 5] ⟨0, min 1 (m.safe_scale * (21 / 20)), buildIdentityRamp,
            false, m.safe_scale⟩).2.filter (fun att => att.accepted)) ≠ [] := by
        intro h0
        apply hne
        rw [h0, List.map_nil]
      obtain ⟨att, hatt⟩ := List.exists_mem_of_ne_nil _ hfil
      have hm2 := List.mem_filter.mp hatt
      exact ⟨att, hm2.1, by simpa using hm2.2⟩

lemma applyAllGo_flag_iff (setOk verifyOk : ℕ → ℚ → Bool) (ramp : GammaRamp) :
    ∀ (ms : List MonitorInfo) (idx : ℕ),
      (applyAllGo setOk verifyOk ramp ms idx).1 = true ↔
        ∀ r ∈ (applyAllGo setOk verifyOk ramp ms idx).2.2,
          acceptedWrites r ≠ [] := by
  intro ms
  induction ms with
  | nil =>
    intro idx
    simp [applyAllGo]
  | cons m rest ih =>
    intro idx
    simp only [applyAllGo, Bool.and_eq_true, List.mem_cons, forall_eq_or_imp]
    rw [ih, applyRampAdaptive_success_iff]

/-- C9 (amended): applyAll returns true exactly when every display's
adaptive search accepted at least one probed ramp; the accepted ramp may
equal the identity ramp (as the Linear curve shows), so acceptance of a
non-identity ramp is not implied. -/
theorem c9_applyAll_success_iff_accepted (powFn : ℚ → ℚ → ℚ)
    (setOk verifyOk : ℕ → ℚ → Bool) (curve : ToneCurve) (strength : ℚ)
    (pts : Option (List CurvePoint)) (ms : List MonitorInfo) :
    (applyAll powFn setOk verifyOk curve strength pts ms).1 = true ↔
      ∀ r ∈ (applyAll powFn setOk verifyOk curve strength pts ms).2.2,
        acceptedWrites r ≠ [] :=
  applyAllGo_flag_iff setOk verifyOk (buildRamp powFn curve strength pts) ms 0

/-- Witness for C9: on the Linear one-display all-accepting run, applyAll
reports true and the theorem yields that each display accepted a write. -/
theorem c9_applyAll_success_iff_accepted_witness :
    (applyAll powZero acceptAllMonOracle acceptAllMonOracle ToneCurve.Linear 1 none
        [mon0]).1 = true ∧
    (∀ r ∈ (applyAll powZero acceptAllMonOracle acceptAllMonOracle ToneCurve.Linear 1
        none [mon0]).2.2, acceptedWrites r ≠ []) := by
  have hflag : (applyAll powZero acceptAllMonOracle acceptAllMonOracle ToneCurve.Linear
      1 none [mon0]).1 = true := by
    unfold applyAll
    rw [buildRamp_linear]
    norm_num [applyAllGo, applyRampAdaptive, adaptiveLoop, acceptAllMonOracle, mon0,
      initialSafeScale, min_def]
  exact ⟨hflag,
    (c9_applyAll_success_iff_accepted powZero acceptAllMonOracle acceptAllMonOracle
      ToneCurve.Linear 1 none [mon0]).mp hflag⟩

/-! C7: shape of the bisection loop — first probe at high, midpoints
afterwards, at most 6 attempts, and the convergence check runs only in
the accepted branch. -/

/-- Relation between consecutive attempts: the later probe is the
midpoint of the bounds left by the earlier one. -/
def midRel (r1 r2 : AttemptRec) : Prop :=
  r2.tryScale = (r1.lowAfter + r1.highAfter) / 2

lemma adaptiveLoop_length_le (setOk verifyOk : ℚ → Bool) (ideal ident : GammaRamp) :
    ∀ (as : List ℕ) (st : LoopCore),
      (adaptiveLoop setOk verifyOk ideal ident as st).2.length ≤ as.length := by
  intro as
  induction as with
  | nil => intro st; simp [adaptiveLoop]
  | cons a rest ih =>
    intro st
    simp only [adaptiveLoop]
    generalize (if a = 0 then st.high else (st.low + st.high) / 2) = t
    by_cases hso : setOk t = true
    · rw [if_pos hso]
      by_cases hvo : verifyOk t = true
      · rw [if_pos hvo]
        by_cases hbr : st.high - t < 1 / 50
        · rw [if_pos hbr]
          simp
        · rw [if_neg hbr]
          simpa using Nat.succ_le_succ (ih _)
      · rw [if_neg hvo]
        simpa using Nat.succ_le_succ (ih _)
    · rw [if_neg hso]
      simpa using Nat.succ_le_succ (ih _)

lemma adaptiveLoop_trace_ne_nil (setOk verifyOk : ℚ → Bool) (ideal ident : GammaRamp)
    (a : ℕ) (rest : List ℕ) (st : LoopCore) :
    (adaptiveLoop setOk verifyOk ideal ident (a :: rest) st).2 ≠ [] := by
  simp only [adaptiveLoop]
  generalize (if a = 0 then st.high else (st.low + st.high) / 2) = t
  by_cases hso : setOk t = true
  · rw [if_pos hso]
    by_cases hvo : verifyOk t = true
    · rw [if_pos hvo]
      by_cases hbr : st.high - t < 1 / 50
      · rw [if_pos hbr]
        simp
      · rw [if_neg hbr]
        simp
    · rw [if_neg hvo]
      simp
  · rw [if_neg hso]
    simp

lemma adaptiveLoop_head_try (setOk verifyOk : ℚ → Bool) (ideal ident : GammaRamp)
    (a : ℕ) (rest : List ℕ) (st : LoopCore) :
    ∀ att, ((adaptiveLoop setOk verifyOk ideal ident (a :: rest) st).2).head? = some att →
      att.tryScale = if a = 0 then st.high else (st.low + st.high) / 2 := by
  simp only [adaptiveLoop]
  generalize (if a = 0 then st.high else (st.low + st.high) / 2) = t
  intro att hatt
  by_cases hso : setOk t = true
  · rw [if_pos hso] at hatt
    by_cases hvo : verifyOk t = true
    · rw [if_pos hvo] at hatt
      by_cases hbr : st.high - t < 1 / 50
      · rw [if_pos hbr] at hatt
        simp only [List.head?_cons, Option.some.injEq] at hatt
        rw [← hatt]
      · rw [if_neg hbr] at hatt
        simp only [List.head?_cons, Option.some.injEq] at hatt
        rw [← hatt]
    · rw [if_neg hvo] at hatt
      simp only [List.head?_cons, Option.some.injEq] at hatt
      rw [← hatt]
  · rw [if_neg hso] at hatt
    simp only [List.head?_cons, Option.some.injEq] at hatt
    rw [← hatt]

lemma adaptiveLoop_chain (setOk verifyOk : ℚ → Bool) (ideal ident : GammaRamp) :
    ∀ (as : List ℕ) (st : LoopCore), (∀ b ∈ as.tail, b ≠ 0) →
      List.Chain' midRel (adaptiveLoop setOk verifyOk ideal ident as st).2 ∧
      (∀ a0, as.head? = some a0 → a0 ≠ 0 →
        ∀ att, ((adaptiveLoop setOk verifyOk ideal ident as st).2).head? = some att →
          att.tryScale = (st.low + st.high) / 2) := by
  intro as
  induction as with
  | nil =>
    intro st _
    constructor
    · simp [adaptiveLoop]
    · intro a0 h0
      simp at h0
  | cons a rest ih =>
    intro st hnz
    have hrest0 : ∀ b ∈ rest, b ≠ 0 := by
      intro b hb
      exact hnz b (by simpa using hb)
    have hresttail : ∀ b ∈ rest.tail, b ≠ 0 := by
      intro b hb
      exact hrest0 b (List.mem_of_mem_tail hb)
    constructor
    · -- the chain property of the whole trace
      simp only [adaptiveLoop]
      generalize ht : (if a = 0 then st.high else (st.low + st.high) / 2) = t
      by_cases hso : setOk t = true
      · rw [if_pos hso]
        by_cases hvo : verifyOk t = true
        · rw [if_pos hvo]
          by_cases hbr : st.high - t < 1 / 50
          · rw [if_pos hbr]
            exact List.chain'_singleton _
          · rw [if_neg hbr]
            rw [List.chain'_cons']
            constructor
            · intro b hb
              rcases rest with _ | ⟨r0, rs⟩
              · simp [adaptiveLoop] at hb
              · have hb' := (ih _ hresttail).2 r0 rfl (hrest0 r0 (by simp)) b hb
                show b.tryScale = _
                rw [hb']
            · exact (ih _ hresttail).1
        · rw [if_neg hvo]
          rw [List.chain'_cons']
          constructor
          · intro b hb
            rcases rest with _ | ⟨r0, rs⟩
            · simp [adaptiveLoop] at hb
            · have hb' := (ih _ hresttail).2 r0 rfl (hrest0 r0 (by simp)) b hb
              show b.tryScale = _
              rw [hb']
          · exact (ih _ hresttail).1
      · rw [if_neg hso]
        rw [List.chain'_cons']
        constructor
        · intro b hb
          rcases rest with _ | ⟨r0, rs⟩
          · simp [adaptiveLoop] at hb
          · have hb' := (ih _ hresttail).2 r0 rfl (hrest0 r0 (by simp)) b hb
            show b.tryScale = _
            rw [hb']
        · exact (ih _ hresttail).1
    · -- the head probe of a nonzero attempt is the midpoint
      intro a0 h0 ha0 att hatt
      simp only [List.head?_cons, Option.some.injEq] at h0
      rw [← h0] at ha0
      have := adaptiveLoop_head_try setOk verifyOk ideal ident a rest st att hatt
      rw [this, if_neg ha0]

lemma adaptiveLoop_early_stop (setOk verifyOk : ℚ → Bool) (ideal ident : GammaRamp) :
    ∀ (as : List ℕ) (st : LoopCore),
      (adaptiveLoop setOk verifyOk ideal ident as st).2.length < as.length →
      ∃ att, ((adaptiveLoop setOk verifyOk ideal ident as st).2).getLast? = some att ∧
        att.accepted = true ∧ att.highAfter - att.lowAfter < 1 / 50 := by
  intro as
  induction as with
  | nil =>
    intro st h
    simp [adaptiveLoop] at h
  | cons a rest ih =>
    intro st h
    simp only [adaptiveLoop] at h ⊢
    generalize ht : (if a = 0 then st.high else (st.low + st.high) / 2) = t at h ⊢
    by_cases hso : setOk t = true
    · rw [if_pos hso] at h ⊢
      by_cases hvo : verifyOk t = true
      · rw [if_pos hvo] at h ⊢
        by_cases hbr : st.high - t < 1 / 50
        · rw [if_pos hbr] at h ⊢
          exact ⟨_, rfl, rfl, by simpa using hbr⟩
        · rw [if_neg hbr] at h ⊢
          simp only [List.length_cons, Nat.add_lt_add_iff_right] at h
          obtain ⟨att, hlast, hacc, hcv⟩ := ih _ (by simpa using Nat.lt_of_lt_of_le h (le_refl _))
          refine ⟨att, ?_, hacc, hcv⟩
          rcases hne : (adaptiveLoop setOk verifyOk ideal ident rest
              ⟨t, st.high, enforceMonotonicity (blendRampTowardIdentity ideal ident t),
                true, t⟩).2 with _ | ⟨x, xs⟩
          · rw [hne] at hlast
            simp at hlast
          · rw [hne] at hlast
            simp only
            rw [List.getLast?_cons_cons]
            exact hlast
      · rw [if_neg hvo] at h ⊢
        simp only [List.length_cons, Nat.add_lt_add_iff_right] at h
        obtain ⟨att, hlast, hacc, hcv⟩ := ih _ h
        refine ⟨att, ?_, hacc, hcv⟩
        rcases hne : (adaptiveLoop setOk verifyOk ideal ident rest
            ⟨st.low, t, st.last_good, st.any_success, st.safe_scale⟩).2 with _ | ⟨x, xs⟩
        · rw [hne] at hlast
          simp at hlast
        · rw [hne] at hlast
          simp only
          rw [List.getLast?_cons_cons]
          exact hlast
    · rw [if_neg hso] at h ⊢
      simp only [List.length_cons, Nat.add_lt_add_iff_right] at h
      obtain ⟨att, hlast, hacc, hcv⟩ := ih _ h
      refine ⟨att, ?_, hacc, hcv⟩
      rcases hne : (adaptiveLoop setOk verifyOk ideal ident rest
          ⟨st.low, t, st.last_good, st.any_success, st.safe_scale⟩).2 with _ | ⟨x, xs⟩
      · rw [hne] at hlast
        simp at hlast
      · rw [hne] at hlast
        simp only
        rw [List.getLast?_cons_cons]
        exact hlast

lemma adaptiveLoop_no_mid_stop (setOk verifyOk : ℚ → Bool) (ideal ident : GammaRamp) :
    ∀ (as : List ℕ) (st : LoopCore),
      ∀ att ∈ (adaptiveLoop setOk verifyOk ideal ident as st).2.dropLast,
        ¬(att.accepted = true ∧ att.highAfter - att.lowAfter < 1 / 50) := by
  intro as
  induction as with
  | nil =>
    intro st att hatt
    simp [adaptiveLoop] at hatt
  | cons a rest ih =>
    intro st att hatt
    simp only [adaptiveLoop] at hatt
    generalize ht : (if a = 0 then st.high else (st.low + st.high) / 2) = t at hatt
    by_cases hso : setOk t = true
    · rw [if_pos hso] at hatt
      by_cases hvo : verifyOk t = true
      · rw [if_pos hvo] at hatt
        by_cases hbr : st.high - t < 1 / 50
        · rw [if_pos hbr] at hatt
          simp at hatt
        · rw [if_neg hbr] at hatt
          rcases hne : (adaptiveLoop setOk verifyOk ideal ident rest
              ⟨t, st.high, enforceMonotonicity (blendRampTowardIdentity ideal ident t),
                true, t⟩).2 with _ | ⟨x, xs⟩
          · rw [hne] at hatt
            simp at hatt
          · rw [hne] at hatt
            rw [show (⟨t, enforceMonotonicity (blendRampTowardIdentity ideal ident t),
                false, true, t, st.high⟩ :: x :: xs).dropLast =
              ⟨t, enforceMonotonicity (blendRampTowardIdentity ideal ident t),
                false, true, t, st.high⟩ :: (x :: xs).dropLast from rfl] at hatt
            rcases List.mem_cons.mp hatt with rfl | hatt'
            · rintro ⟨-, hcv⟩
              exact hbr (by simpa using hcv)
            · have := ih ⟨t, st.high,
                enforceMonotonicity (blendRampTowardIdentity ideal ident t), true, t⟩ att
              rw [hne] at this
              exact this hatt'
      · rw [if_neg hvo] at hatt
        rcases hne : (adaptiveLoop setOk verifyOk ideal ident rest
            ⟨st.low, t, st.last_good, st.any_success, st.safe_scale⟩).2 with _ | ⟨x, xs⟩
        · rw [hne] at hatt
          simp at hatt
        · rw [hne] at hatt
          rw [show (⟨t, enforceMonotonicity (blendRampTowardIdentity ideal ident t),
              false, false, st.low, t⟩ :: x :: xs).dropLast =
            ⟨t, enforceMonotonicity (blendRampTowardIdentity ideal ident t),
              false, false, st.low, t⟩ :: (x :: xs).dropLast from rfl] at hatt
          rcases List.mem_cons.mp hatt with rfl | hatt'
          · rintro ⟨hacc, -⟩
            simp at hacc
          · have := ih ⟨st.low, t, st.last_good, st.any_success, st.safe_scale⟩ att
            rw [hne] at this
            exact this hatt'
    · rw [if_neg hso] at hatt
      rcases hne : (adaptiveLoop setOk verifyOk ideal ident rest
          ⟨st.low, t, st.last_good, st.any_success, st.safe_scale⟩).2 with _ | ⟨x, xs⟩
      · rw [hne] at hatt
        simp at hatt
      · rw [hne] at hatt
        rw [show (⟨t, enforceMonotonicity (blendRampTowardIdentity ideal ident t),
            true, false, st.low, t⟩ :: x :: xs).dropLast =
          ⟨t, enforceMonotonicity (blendRampTowardIdentity ideal ident t),
            true, false, st.low, t⟩ :: (x :: xs).dropLast from rfl] at hatt
        rcases List.mem_cons.mp hatt with rfl | hatt'
        · rintro ⟨hacc, -⟩
          simp at hacc
        · have := ih ⟨st.low, t, st.last_good, st.any_success, st.safe_scale⟩ att
          rw [hne] at this
          exact this hatt'

lemma applyRampAdaptive_trace (setOk verifyOk : ℚ → Bool) (m : MonitorInfo)
    (ideal : GammaRamp) :
    (applyRampAdaptive setOk verifyOk m ideal).1.trace =
      (adaptiveLoop setOk verifyOk ideal buildIdentityRamp [0, 1, 2, 3, 4, 5]
        ⟨0, min 1 (m.safe_scale * (21 / 20)), buildIdentityRamp, false,
          m.safe_scale⟩).2 := by
  dsimp only [applyRampAdaptive]
  split_ifs <;> rfl

/-- C7 (amended): the bisection probes min(1, safe_scale * 1.05) on
attempt 0 and the midpoint of the current bounds on every subsequent
attempt; it makes at most 6 attempts; it stops before the cap exactly
after an accepted probe with high - low < 0.02, and never stops early at
a non-final attempt — after a rejected probe the convergence test is not
performed, so a rejection that brings the bounds within 0.02 does not end
the loop. -/
theorem c7_bisection_shape (setOk verifyOk : ℚ → Bool) (m : MonitorInfo)
    (ideal : GammaRamp) :
    (applyRampAdaptive setOk verifyOk m ideal).1.trace.length ≤ 6 ∧
    ((applyRampAdaptive setOk verifyOk m ideal).1.trace.head?).map
        (fun att => att.tryScale) = some (min 1 (m.safe_scale * (21 / 20))) ∧
    List.Chain' midRel (applyRampAdaptive setOk verifyOk m ideal).1.trace ∧
    ((applyRampAdaptive setOk verifyOk m ideal).1.trace.length < 6 →
      ∃ att, (applyRampAdaptive setOk verifyOk m ideal).1.trace.getLast? = some att ∧
        att.accepted = true ∧ att.highAfter - att.lowAfter < 1 / 50) ∧
    ∀ att ∈ (applyRampAdaptive setOk verifyOk m ideal).1.trace.dropLast,
      ¬(att.accepted = true ∧ att.highAfter - att.lowAfter < 1 / 50) := by
  rw [applyRampAdaptive_trace]
  refine ⟨?_, ?_, ?_, ?_, ?_⟩
  · exact adaptiveLoop_length_le setOk verifyOk ideal buildIdentityRamp _ _
  · rcases hh : ((adaptiveLoop setOk verifyOk ideal buildIdentityRamp [0, 1, 2, 3, 4, 5]
        ⟨0, min 1 (m.safe_scale * (21 / 20)), buildIdentityRamp, false,
          m.safe_scale⟩).2).head? with _ | att
    · exact absurd (List.head?_eq_none_iff.mp hh)
        (adaptiveLoop_trace_ne_nil setOk verifyOk ideal buildIdentityRamp 0 _ _)
    · have := adaptiveLoop_head_try setOk verifyOk ideal buildIdentityRamp 0 _ _ att hh
      simp only [if_pos rfl] at this
      simp [this]
  · exact (adaptiveLoop_chain setOk verifyOk ideal buildIdentityRamp [0, 1, 2, 3, 4, 5]
      _ (by norm_num)).1
  · exact adaptiveLoop_early_stop setOk verifyOk ideal buildIdentityRamp _ _
  · exact adaptiveLoop_no_mid_stop setOk verifyOk ideal buildIdentityRamp _ _

/-- Monitor whose learned safe_scale is 1/35, so the first probe is 0.03
and the bounds are already inside the 0.02 window after one rejection. -/
def monC7 : MonitorInfo := ⟨true, buildIdentityRamp, 1 / 35⟩

/-- C7 counterexample: with every probe rejected and safe_scale = 1/35,
after attempt 1 the bounds satisfy high - low = 3/200 < 0.02, yet the
loop still makes all 6 attempts — it does not stop as soon as
high - low < 0.02 after a rejected probe. -/
theorem c7_reject_no_early_stop_counterexample :
    ((applyRampAdaptive rejectAllOracle rejectAllOracle monC7 buildIdentityRamp).1.trace.map
        (fun att => att.tryScale)) =
      [3 / 100, 3 / 200, 3 / 400, 3 / 800, 3 / 1600, 3 / 3200] ∧
    ((applyRampAdaptive rejectAllOracle rejectAllOracle monC7 buildIdentityRamp).1.trace.map
        (fun att => att.highAfter - att.lowAfter)) =
      [3 / 100, 3 / 200, 3 / 400, 3 / 800, 3 / 1600, 3 / 3200] ∧
    ((3 : ℚ) / 200 < 1 / 50) ∧
    (applyRampAdaptive rejectAllOracle rejectAllOracle monC7 buildIdentityRamp).1.trace.length
      = 6 := by
  norm_num [applyRampAdaptive, adaptiveLoop, rejectAllOracle, monC7, min_def]

/-- Witness for C7 on the all-accepting oracle: the loop stops after one
attempt, and that final attempt was accepted with converged bounds. -/
theorem c7_bisection_shape_witness :
    (applyRampAdaptive acceptAllOracle acceptAllOracle mon0 buildIdentityRamp).1.trace.length
        < 6 ∧
    ∃ att, (applyRampAdaptive acceptAllOracle acceptAllOracle mon0
          buildIdentityRamp).1.trace.getLast? = some att ∧
      att.accepted = true ∧ att.highAfter - att.lowAfter < 1 / 50 := by
  have hlen : (applyRampAdaptive acceptAllOracle acceptAllOracle mon0
      buildIdentityRamp).1.trace.length < 6 := by
    norm_num [applyRampAdaptive, adaptiveLoop, acceptAllOracle, mon0,
      initialSafeScale, min_def]
  exact ⟨hlen, (c7_bisection_shape acceptAllOracle acceptAllOracle mon0
    buildIdentityRamp).2.2.2.1 hlen⟩

/-! The restore path (Gamma.restoreAll lines 374-386, Gamma.restore
lines 420-429).  The displayed state of the attached displays is a map
from display index to the currently displayed ramp; the OS write call is
modelled by rsetOk (whether SetDeviceGammaRamp succeeds for that display
and ramp) and osApply (the ramp the display actually retains after an
accepted write — the identity function for an honest display); both are
deterministic functions of the display and the written ramp. -/

abbrev World := ℕ → GammaRamp

/-- Result of a restore sweep: the returned flag, the displayed state,
and the engine's monitor list after the call. -/
structure RestoreResult where
  flag : Bool
  world : World
  monitors : List MonitorInfo

/-- The loop of Gamma.restoreAll: displays with a captured original get
their original ramp written directly (no bisection, no verification); a
failed write flips the overall flag; displays without an original are
skipped without touching the flag. -/
def restoreGo (rsetOk : ℕ → GammaRamp → Bool)
    (osApply : ℕ → GammaRamp → GammaRamp) :
    List MonitorInfo → ℕ → World → RestoreResult
  | [], _, w => ⟨true, w, []⟩
  | m :: rest, idx, w =>
    if m.has_original then
      let ok := rsetOk idx m.original_ramp
      let w1 : World :=
        if ok then (fun j => if j = idx then osApply idx m.original_ramp else w j)
        else w
      let next := restoreGo rsetOk osApply rest (idx + 1) w1
      ⟨ok && next.flag, next.world, m :: next.monitors⟩
    else
      let next := restoreGo rsetOk osApply rest (idx + 1) w
      ⟨next.flag, next.world, m :: next.monitors⟩

/-- Gamma.restoreAll: sweep every monitor from index 0. -/
def restoreAll (rsetOk : ℕ → GammaRamp → Bool)
    (osApply : ℕ → GammaRamp → GammaRamp) (ms : List MonitorInfo) (w : World) :
    RestoreResult :=
  restoreGo rsetOk osApply ms 0 w

/-- Gamma.restore (single display): out-of-range index or a display
without a captured original returns false without writing; otherwise the
original ramp is written directly. -/
def restore (rsetOk : ℕ → GammaRamp → Bool)
    (osApply : ℕ → GammaRamp → GammaRamp) (ms : List MonitorInfo) (idx : ℕ)
    (w : World) : Bool × World :=
  match ms[idx]? with
  | none => (false, w)
  | some m =>
    if m.has_original then
      if rsetOk idx m.original_ramp then
        (true, fun j => if j = idx then osApply idx m.original_ramp else w j)
      else (false, w)
    else (false, w)

/-! C4: what restoreAll and restore report for displays without a
captured original. -/

lemma restoreGo_flag (rsetOk : ℕ → GammaRamp → Bool)
    (osApply : ℕ → GammaRamp → GammaRamp) :
    ∀ (ms : List MonitorInfo) (idx : ℕ) (w : World),
      (restoreGo rsetOk osApply ms idx w).flag = true ↔
        ∀ j m', ms[j]? = some m' → m'.has_original = true →
          rsetOk (idx + j) m'.original_ramp = true := by
  intro ms
  induction ms with
  | nil =>
    intro idx w
    constructor
    · intro _ j m' hj
      simp at hj
    · intro _
      rfl
  | cons m rest ih =>
    intro idx w
    simp only [restoreGo]
    by_cases hho : m.has_original = true
    · rw [if_pos hho]
      simp only [Bool.and_eq_true]
      rw [ih]
      constructor
      · rintro ⟨hok, hrest⟩ j m' hj hm'
        rcases j with _ | k
        · simp only [List.getElem?_cons_zero, Option.some.injEq] at hj
          rw [← hj]
          simpa using hok
        · simp only [List.getElem?_cons_succ] at hj
          have h2 := hrest k m' hj hm'
          have heq : idx + 1 + k = idx + (k + 1) := by omega
          rw [heq] at h2
          exact h2
      · intro h
        refine ⟨by simpa using h 0 m (by simp) hho, ?_⟩
        intro k m' hk hm'
        have h2 := h (k + 1) m' (by simpa using hk) hm'
        have heq : idx + (k + 1) = idx + 1 + k := by omega
        rw [heq] at h2
        exact h2
    · rw [if_neg hho]
      rw [ih]
      constructor
      · intro h j m' hj hm'
        rcases j with _ | k
        · simp only [List.getElem?_cons_zero, Option.some.injEq] at hj
          rw [← hj] at hm'
          exact absurd hm' (by simpa using hho)
        · simp only [List.getElem?_cons_succ] at hj
          have h2 := h k m' hj hm'
          have heq : idx + 1 + k = idx + (k + 1) := by omega
          rw [heq] at h2
          exact h2
      · intro h k m' hk hm'
        have h2 := h (k + 1) m' (by simpa using hk) hm'
        have heq : idx + (k + 1) = idx + 1 + k := by omega
        rw [heq] at h2
        exact h2

/-- C4 (amended): restoreAll skips displays without a captured original
without marking any failure — its flag is true exactly when every display
that does have an original accepts its restore write; restore(index) on a
display without an original returns false and leaves the displayed state
untouched. -/
theorem c4_restore_no_original (rsetOk : ℕ → GammaRamp → Bool)
    (osApply : ℕ → GammaRamp → GammaRamp) (ms : List MonitorInfo) (w : World) :
    ((restoreAll rsetOk osApply ms w).flag = true ↔
      ∀ j m', ms[j]? = some m' → m'.has_original = true →
        rsetOk j m'.original_ramp = true) ∧
    ∀ idx m', ms[idx]? = some m' → m'.has_original = false →
      restore rsetOk osApply ms idx w = (false, w) := by
  constructor
  · have h := restoreGo_flag rsetOk osApply ms 0 w
    simpa using h
  · intro idx m' hm hho
    unfold restore
    rw [hm]
    simp [hho]

/-- Monitor without a captured original. -/
def monNoOrig : MonitorInfo := ⟨false, buildIdentityRamp, 1⟩

/-- Concrete displayed state for the restore scenarios. -/
def world0 : World := fun _ => buildIdentityRamp

/-- C4 counterexample: with the single display lacking a captured
original — and an oracle under which any attempted write would fail —
restoreAll reports overall success (true), not failure, because the
display is skipped silently. -/
theorem c4_skip_reports_success_counterexample :
    (restoreAll (fun _ _ => false) (fun _ r => r) [monNoOrig] world0).flag = true ∧
    restore (fun _ _ => false) (fun _ r => r) [monNoOrig] 0 world0 = (false, world0) :=
  ⟨rfl, rfl⟩

/-- Witness for C4: the single original-less display instantiates the
restore clause of the amended theorem. -/
theorem c4_restore_no_original_witness :
    ([monNoOrig][0]? = some monNoOrig) ∧ monNoOrig.has_original = false ∧
    restore (fun _ _ => false) (fun _ r => r) [monNoOrig] 0 world0 = (false, world0) :=
  ⟨rfl, rfl,
    (c4_restore_no_original (fun _ _ => false) (fun _ r => r) [monNoOrig] world0).2
      0 monNoOrig rfl rfl⟩

/-! C8: restoreAll is idempotent and never mutates the engine state. -/

lemma restoreGo_monitors (rsetOk : ℕ → GammaRamp → Bool)
    (osApply : ℕ → GammaRamp → GammaRamp) :
    ∀ (ms : List MonitorInfo) (idx : ℕ) (w : World),
      (restoreGo rsetOk osApply ms idx w).monitors = ms := by
  intro ms
  induction ms with
  | nil => intro idx w; rfl
  | cons m rest ih =>
    intro idx w
    simp only [restoreGo]
    by_cases hho : m.has_original = true
    · rw [if_pos hho]
      simp [ih]
    · rw [if_neg hho]
      simp [ih]

lemma restoreGo_world_lower (rsetOk : ℕ → GammaRamp → Bool)
    (osApply : ℕ → GammaRamp → GammaRamp) :
    ∀ (ms : List MonitorInfo) (idx : ℕ) (w : World) (x : ℕ), x < idx →
      (restoreGo rsetOk osApply ms idx w).world x = w x := by
  intro ms
  induction ms with
  | nil => intro idx w x _; rfl
  | cons m rest ih =>
    intro idx w x hx
    simp only [restoreGo]
    by_cases hho : m.has_original = true
    · rw [if_pos hho]
      by_cases hok : rsetOk idx m.original_ramp = true
      · rw [if_pos hok]
        rw [show (RestoreResult.world ⟨_, (restoreGo rsetOk osApply rest (idx + 1)
          (fun j => if j = idx then osApply idx m.original_ramp else w j)).world, _⟩ : World) =
          (restoreGo rsetOk osApply rest (idx + 1)
            (fun j => if j = idx then osApply idx m.original_ramp else w j)).world from rfl]
        rw [ih _ _ x (by omega)]
        rw [if_neg (by omega)]
      · rw [if_neg hok]
        exact ih _ _ x (by omega)
    · rw [if_neg hho]
      exact ih _ _ x (by omega)

lemma restoreGo_idempotent (rsetOk : ℕ → GammaRamp → Bool)
    (osApply : ℕ → GammaRamp → GammaRamp) :
    ∀ (ms : List MonitorInfo) (idx : ℕ) (w : World),
      (restoreGo rsetOk osApply ms idx
          ((restoreGo rsetOk osApply ms idx w).world)).world =
        (restoreGo rsetOk osApply ms idx w).world := by
  intro ms
  induction ms with
  | nil => intro idx w; rfl
  | cons m rest ih =>
    intro idx w
    by_cases hho : m.has_original = true
    · by_cases hok : rsetOk idx m.original_ramp = true
      · have hW1at : (restoreGo rsetOk osApply rest (idx + 1)
            (fun j => if j = idx then osApply idx m.original_ramp else w j)).world idx =
            osApply idx m.original_ramp := by
          rw [restoreGo_world_lower rsetOk osApply rest (idx + 1) _ idx (by omega)]
          simp
        have hover : (fun j => if j = idx then osApply idx m.original_ramp else
            (restoreGo rsetOk osApply rest (idx + 1)
              (fun j => if j = idx then osApply idx m.original_ramp else w j)).world j) =
            (restoreGo rsetOk osApply rest (idx + 1)
              (fun j => if j = idx then osApply idx m.original_ramp else w j)).world := by
          funext x
          by_cases hx : x = idx
          · rw [if_pos hx, hx, hW1at]
          · rw [if_neg hx]
        have hfirst : (restoreGo rsetOk osApply (m :: rest) idx w).world =
            (restoreGo rsetOk osApply rest (idx + 1)
              (fun j => if j = idx then osApply idx m.original_ramp else w j)).world := by
          simp only [restoreGo]
          rw [if_pos hho, if_pos hok]
        rw [hfirst]
        have hsecond : (restoreGo rsetOk osApply (m :: rest) idx
            ((restoreGo rsetOk osApply rest (idx + 1)
              (fun j => if j = idx then osApply idx m.original_ramp else w j)).world)).world =
            (restoreGo rsetOk osApply rest (idx + 1)
              (fun j => if j = idx then osApply idx m.original_ramp else
                (restoreGo rsetOk osApply rest (idx + 1)
                  (fun j => if j = idx then osApply idx m.original_ramp else w j)).world j)).world := by
          simp only [restoreGo]
          rw [if_pos hho, if_pos hok]
        rw [hsecond, hover]
        exact ih (idx + 1) _
      · have hfirst : (restoreGo rsetOk osApply (m :: rest) idx w).world =
            (restoreGo rsetOk osApply rest (idx + 1) w).world := by
          simp only [restoreGo]
          rw [if_pos hho, if_neg hok]
        rw [hfirst]
        have hsecond : (restoreGo rsetOk osApply (m :: rest) idx
            ((restoreGo rsetOk osApply rest (idx + 1) w).world)).world =
            (restoreGo rsetOk osApply rest (idx + 1)
              ((restoreGo rsetOk osApply rest (idx + 1) w).world)).world := by
          simp only [restoreGo]
          rw [if_pos hho, if_neg hok]
        rw [hsecond]
        exact ih (idx + 1) w
    · have hfirst : (restoreGo rsetOk osApply (m :: rest) idx w).world =
          (restoreGo rsetOk osApply rest (idx + 1) w).world := by
        simp only [restoreGo]
        rw [if_neg hho]
      rw [hfirst]
      have hsecond : (restoreGo rsetOk osApply (m :: rest) idx
          ((restoreGo rsetOk osApply rest (idx + 1) w).world)).world =
          (restoreGo rsetOk osApply rest (idx + 1)
            ((restoreGo rsetOk osApply rest (idx + 1) w).world)).world := by
        simp only [restoreGo]
        rw [if_neg hho]
      rw [hsecond]
      exact ih (idx + 1) w

lemma restoreGo_flag_indep (rsetOk : ℕ → GammaRamp → Bool)
    (osApply : ℕ → GammaRamp → GammaRamp) (ms : List MonitorInfo) (idx : ℕ)
    (w w' : World) :
    (restoreGo rsetOk osApply ms idx w).flag =
      (restoreGo rsetOk osApply ms idx w').flag := by
  rw [Bool.eq_iff_iff, restoreGo_flag, restoreGo_flag]

/-- C8: restoreAll is idempotent — running it again on the displayed
state it produced changes nothing — and it leaves the engine's monitor
list (original ramps, has_original flags, safe scales) unchanged in both
calls; the reported flag is also the same both times. -/
theorem c8_restoreAll_idempotent (rsetOk : ℕ → GammaRamp → Bool)
    (osApply : ℕ → GammaRamp → GammaRamp) (ms : List MonitorInfo) (w : World) :
    (restoreAll rsetOk osApply ms
        ((restoreAll rsetOk osApply ms w).world)).world =
      (restoreAll rsetOk osApply ms w).world ∧
    (restoreAll rsetOk osApply ms w).monitors = ms ∧
    (restoreAll rsetOk osApply ms
        ((restoreAll rsetOk osApply ms w).world)).monitors = ms ∧
    (restoreAll rsetOk osApply ms
        ((restoreAll rsetOk osApply ms w).world)).flag =
      (restoreAll rsetOk osApply ms w).flag := by
  refine ⟨restoreGo_idempotent rsetOk osApply ms 0 w,
    restoreGo_monitors rsetOk osApply ms 0 w,
    restoreGo_monitors rsetOk osApply ms 0 _,
    restoreGo_flag_indep rsetOk osApply ms 0 _ _⟩

end LumosGamma
